import Mathlib

/-!
Shallow embedding of `src/affine_cipher_decrypter.py` (class `AffineCipherDecrypter`).

Strings are modelled as lists of natural-number code points (`PyStr`); the
character predicates (`str.isalpha`, `str.isupper`, `str.lower`, `str.upper`,
the regex `\b[a-z]+\b`) are modelled on their ASCII fragment, which is the
range exercised by the program (the word bank and the cipher alphabet are
ASCII letters).  Python's `%` on a positive modulus is floor-mod, which agrees
with Lean's `Int.emod` for positive divisors.  Fallible code paths (the
`TypeError` raised when `decrypt` multiplies by `None`, the `ValueError`
raised by `max()` on an empty dict) are modelled with `Option`.
-/

namespace AffineCipher

/-- A Python string, as its list of code points. -/
abbrev PyStr := List Nat

/-- ASCII fragment of Python `str.isalpha`. -/
def pyIsAlpha (c : Nat) : Bool :=
  decide ((65 ≤ c ∧ c ≤ 90) ∨ (97 ≤ c ∧ c ≤ 122))

/-- ASCII fragment of Python `str.isupper` for a single character. -/
def pyIsUpper (c : Nat) : Bool :=
  decide (65 ≤ c ∧ c ≤ 90)

/-- ASCII lowercase letter test (`[a-z]` of the scoring regex). -/
def pyIsLowerAZ (c : Nat) : Bool :=
  decide (97 ≤ c ∧ c ≤ 122)

/-- ASCII fragment of Python `str.isdigit`. -/
def pyIsDigit (c : Nat) : Bool :=
  decide (48 ≤ c ∧ c ≤ 57)

/-- ASCII fragment of Python `str.lower` on one character. -/
def pyLower (c : Nat) : Nat :=
  if 65 ≤ c ∧ c ≤ 90 then c + 32 else c

/-- ASCII fragment of Python `str.upper` on one character. -/
def pyUpper (c : Nat) : Nat :=
  if 97 ≤ c ∧ c ≤ 122 then c - 32 else c

/-- A regex word character `\w` (ASCII fragment): letter, digit or underscore. -/
def pyIsWordChar (c : Nat) : Bool :=
  pyIsAlpha c || pyIsDigit c || c == 95

/-!
## `extended_gcd` (source lines 109-126)

The Python function recurses on `extended_gcd(b % a, a)`.  Since `b % a < a`
for `a > 0`, the first argument strictly decreases, so a fuel of `a + 1`
bounds the recursion depth; `egcdAux_fuel` below proves the fuel is
irrelevant as long as it exceeds the first argument, so the zero-fuel branch
of `egcdAux` is never reached from `extended_gcd`.
-/

/-- Fuel-bounded body of `extended_gcd`.  The zero-fuel result is arbitrary
and unreachable from `extended_gcd` (see `egcdAux_fuel`). -/
def egcdAux : Nat → Nat → Nat → Nat × Int × Int
  | _, 0, b => (b, 0, 1)
  | 0, _ + 1, _ => (0, 0, 0)
  | fuel + 1, a + 1, b =>
    let r := egcdAux fuel (b % (a + 1)) (a + 1)
    (r.1, r.2.2 - ((b / (a + 1) : Nat) : Int) * r.2.1, r.2.1)

/-- Embeds `AffineCipherDecrypter.extended_gcd(a, b)`: returns `(g, x, y)` with
`g = gcd(a, b)` and `a*x + b*y = g`. -/
def extended_gcd (a b : Nat) : Nat × Int × Int :=
  egcdAux (a + 1) a b

/-- Embeds `AffineCipherDecrypter.modular_inverse(a, m)` (source lines 93-107):
`None` when `extended_gcd(a, m)[0] != 1`, else `x % m`.
(For `m = 0` and `gcd(a, 0) = 1` Python would raise `ZeroDivisionError`;
that case is outside the spec's data model, which requires `m ≥ 1`.) -/
def modular_inverse (a m : Nat) : Option Int :=
  if (extended_gcd a m).1 ≠ 1 then none
  else some ((extended_gcd a m).2.1 % (m : Int))

/-!
## `decrypt` (source lines 70-91)
-/

/-- The per-character affine decryption map applied to an alphabetic
character, given the multiplier's modular inverse `inv`:
`chr(((ord(char.lower()) - ord('a') - shift) * inverse) % m + ord('a'))`,
then `.upper()` if the input character was uppercase. -/
def affChar (m : Nat) (shift inv : Int) (c : Nat) : Nat :=
  let d : Int := (((pyLower c : Int) - 97 - shift) * inv) % (m : Int) + 97
  if pyIsUpper c then pyUpper d.toNat else d.toNat

/-- One character of `decrypt`: non-alphabetic characters pass through;
alphabetic characters require `modular_inverse` to succeed (in Python a
`None` inverse raises `TypeError` at the multiplication, modelled `none`). -/
def decryptChar (m : Nat) (shift : Int) (mult : Nat) (c : Nat) : Option Nat :=
  if pyIsAlpha c then (modular_inverse mult m).map (fun inv => affChar m shift inv c)
  else some c

/-- Embeds `AffineCipherDecrypter.decrypt(ciphertext, shift, multiplier)` with
alphabet size `m`. -/
def decrypt (m : Nat) (shift : Int) (mult : Nat) : PyStr → Option PyStr
  | [] => some []
  | c :: cs =>
    match decryptChar m shift mult c, decrypt m shift mult cs with
    | some d, some p => some (d :: p)
    | _, _ => none

/-- The total decryption function for a key whose inverse exists:
`decrypt` returns `some (decryptF m shift inv ct)` in that case. -/
def decryptF (m : Nat) (shift inv : Int) (ct : PyStr) : PyStr :=
  ct.map (fun c => if pyIsAlpha c then affChar m shift inv c else c)

/-!
## `calculate_score` (source lines 128-138)

`re.findall(r'\b[a-z]+\b', plaintext.lower())` is embedded by `scanAux`, a
left-to-right scan that mirrors the regex engine: a match may start only at a
word boundary (previous character not a word character), consists of a
maximal run of `[a-z]`, and must end at a word boundary (next character not a
word character, or end of string).  A candidate run followed by a digit or
underscore is abandoned, exactly as the engine fails and resumes.
-/

/-- Regex scan for `\b[a-z]+\b`.  `prevW` records whether the previous
character was a word character; `cur` is the candidate token scanned so far,
in reverse. -/
def scanAux : Bool → Option (List Nat) → List Nat → List (List Nat)
  | _, none, [] => []
  | _, some t, [] => [t.reverse]
  | prevW, none, c :: cs =>
    if !prevW && pyIsLowerAZ c then scanAux true (some [c]) cs
    else scanAux (pyIsWordChar c) none cs
  | _, some t, c :: cs =>
    if pyIsLowerAZ c then scanAux true (some (c :: t)) cs
    else if pyIsWordChar c then scanAux true none cs
    else t.reverse :: scanAux false none cs

/-- The tokens `re.findall(r'\b[a-z]+\b', s)` finds in `s`. -/
def findallWords (s : List Nat) : List (List Nat) :=
  scanAux false none s

/-- Embeds `AffineCipherDecrypter.calculate_score(plaintext)` against word bank
`bank`: the number of found tokens that are members of the bank. -/
def calculate_score (bank : List PyStr) (plaintext : PyStr) : Nat :=
  (((findallWords (plaintext.map pyLower))).filter (fun w => decide (w ∈ bank))).length

/-- Maximal runs of characters satisfying `p`; `cur` is the run in progress,
in reverse.  Used to state clean characterisations of the tokenizer. -/
def runsAux (p : Nat → Bool) : Option (List Nat) → List Nat → List (List Nat)
  | none, [] => []
  | some t, [] => [t.reverse]
  | none, c :: cs => if p c then runsAux p (some [c]) cs else runsAux p none cs
  | some t, c :: cs =>
    if p c then runsAux p (some (c :: t)) cs else t.reverse :: runsAux p none cs

/-- Maximal runs of characters satisfying `p` in a string. -/
def runsP (p : Nat → Bool) (s : List Nat) : List (List Nat) :=
  runsAux p none s

/-- Modelled from the claim's words (C3): tokenize into maximal runs of
*alphabetic* characters bounded by non-alphabetic characters or the string
boundaries, and count the runs that are members of the bank. -/
def specScoreAlphaRuns (bank : List PyStr) (plaintext : PyStr) : Nat :=
  ((runsP pyIsAlpha (plaintext.map pyLower)).filter (fun w => decide (w ∈ bank))).length

/-!
## `find_possible_plaintext` (source lines 39-68)

The Python accumulator `possible_plaintext` is a `dict` keyed by plaintext:
insertion order is preserved, inserting an existing key overwrites its value
in place.  `max()` on an empty dict raises `ValueError`, modelled `none`.
-/

/-- Python dict assignment `d[k] = v` on an insertion-ordered association
list. -/
def dictInsert (d : List (PyStr × Nat)) (k : PyStr) (v : Nat) : List (PyStr × Nat) :=
  if k ∈ d.map Prod.fst then d.map (fun kv => if kv.1 = k then (k, v) else kv)
  else d ++ [(k, v)]

/-- The key pairs enumerated by the double loop:
`shift in range(alphabet_size)`, `multiplier in range(1, alphabet_size)`. -/
def allKeys (m : Nat) : List (Nat × Nat) :=
  (List.range m).flatMap (fun s =>
    ((List.range m).filter (fun k => decide (0 < k))).map (fun k => (s, k)))

/-- The enumerated keys that survive the `inverse is None` skip, in
enumeration order (shift-major, multiplier-minor). -/
def validKeys (m : Nat) : List (Nat × Nat) :=
  (allKeys m).filter (fun key => (modular_inverse key.2 m).isSome)

/-- The dict `possible_plaintext` after the double loop: for each enumerated
key, skip when the multiplier has no inverse, else assign
`d[plaintext] = score`. -/
def possible_plaintext_dict (m : Nat) (bank : List PyStr) (ct : PyStr) : List (PyStr × Nat) :=
  (allKeys m).foldl (fun d key =>
    match modular_inverse key.2 m with
    | none => d
    | some _ =>
      match decrypt m (key.1 : Int) key.2 ct with
      | some p => dictInsert d p (calculate_score bank p)
      | none => d) []

/-- Embeds `AffineCipherDecrypter.find_possible_plaintext()` for alphabet size `m`,
word bank `bank` and ciphertext `ct`.  Returns `none` when `max()` is applied
to an empty dict (Python: uncaught `ValueError`). -/
def find_possible_plaintext (m : Nat) (bank : List PyStr) (ct : PyStr) : Option (List PyStr) :=
  if possible_plaintext_dict m bank ct = [] then none
  else
    some ((((possible_plaintext_dict m bank ct).filter
      (fun kv => kv.2 == ((possible_plaintext_dict m bank ct).map Prod.snd).foldl max 0)).map
        Prod.fst))

/-- The decryption of the ciphertext under every valid key, in enumeration
order (one entry per key, duplicates kept). -/
def candidatePlaintexts (m : Nat) (ct : PyStr) : List PyStr :=
  (validKeys m).filterMap (fun key => decrypt m (key.1 : Int) key.2 ct)

/-- Maximum (`max`) over a list of scores, as used on the dict's values. -/
def listMax (l : List Nat) : Nat :=
  l.foldl max 0

/-- First-occurrence deduplication, matching Python dict key semantics. -/
def insertNew (q : List PyStr) (p : PyStr) : List PyStr :=
  if p ∈ q then q else q ++ [p]

/-- The distinct elements of a list in order of first occurrence. -/
def firstOccurrences (ps : List PyStr) : List PyStr :=
  ps.foldl insertNew []

/-- Modelled from the claim's words (C4): every `(plaintext, score)`
candidate, one per valid key and without deduplication, filtered to the
maximal score. -/
def specResultNoDedup (m : Nat) (bank : List PyStr) (ct : PyStr) : List PyStr :=
  ((candidatePlaintexts m ct).filter
    (fun p => calculate_score bank p == listMax ((candidatePlaintexts m ct).map (calculate_score bank))))

/-!
## The forward transform (for the round-trip claim C1)

Modelled from the spec: encryption is not part of `src/`; the spec defines it
as `cipher_index = (plain_index*k + shift) mod m` applied to each alphabetic
character, preserving case and non-alphabetic characters. -/

/-- Modelled from the spec: the forward affine transform on one character. -/
def encryptChar (m k shift : Nat) (c : Nat) : Nat :=
  if pyIsAlpha c then
    let e := ((pyLower c - 97) * k + shift) % m + 97
    if pyIsUpper c then pyUpper e else e
  else c

/-- Modelled from the spec: the forward affine transform on a string. -/
def encrypt (m k shift : Nat) (pt : PyStr) : PyStr :=
  pt.map (encryptChar m k shift)

/-!
## Correctness of `extended_gcd` and `modular_inverse`
-/

lemma egcdAux_spec : ∀ fuel a b : Nat, a < fuel →
    (egcdAux fuel a b).1 = Nat.gcd a b ∧
      (a : Int) * (egcdAux fuel a b).2.1 + (b : Int) * (egcdAux fuel a b).2.2
        = (Nat.gcd a b : Int) := by
  intro fuel
  induction fuel with
  | zero => intro a b h; exact absurd h (Nat.not_lt_zero a)
  | succ f ih =>
    intro a b h
    match a with
    | 0 => simp [egcdAux]
    | a + 1 =>
      have hrec : b % (a + 1) < f := by
        have h1 : b % (a + 1) < a + 1 := Nat.mod_lt _ (Nat.succ_pos a)
        omega
      obtain ⟨ih1, ih2⟩ := ih (b % (a + 1)) (a + 1) hrec
      have hgcd : Nat.gcd (a + 1) b = Nat.gcd (b % (a + 1)) (a + 1) := Nat.gcd_rec _ _
      constructor
      · show (egcdAux (f + 1) (a + 1) b).1 = _
        simp only [egcdAux]
        rw [hgcd]
        exact ih1
      · simp only [egcdAux]
        rw [hgcd]
        have hdm : ((a + 1 : Nat) : Int) * ((b / (a + 1) : Nat) : Int)
            + ((b % (a + 1) : Nat) : Int) = (b : Int) := by
          exact_mod_cast congrArg (fun n : Nat => (n : Int)) (Nat.div_add_mod b (a + 1))
        push_cast at ih2 hdm ⊢
        linear_combination ih2 - (egcdAux f (b % (a + 1)) (a + 1)).2.1 * hdm

lemma extended_gcd_spec (a b : Nat) :
    (extended_gcd a b).1 = Nat.gcd a b ∧
      (a : Int) * (extended_gcd a b).2.1 + (b : Int) * (extended_gcd a b).2.2
        = (Nat.gcd a b : Int) :=
  egcdAux_spec (a + 1) a b (Nat.lt_succ_self a)

lemma egcdAux_fuel : ∀ f1 f2 a b : Nat, a < f1 → a < f2 →
    egcdAux f1 a b = egcdAux f2 a b := by
  intro f1
  induction f1 with
  | zero => intro f2 a b h1 _; exact absurd h1 (Nat.not_lt_zero a)
  | succ f ih =>
    intro f2 a b h1 h2
    match a with
    | 0 =>
      rcases f2 with _ | f2
      · exact absurd h2 (Nat.not_lt_zero 0)
      · rfl
    | a + 1 =>
      rcases f2 with _ | f2
      · exact absurd h2 (Nat.not_lt_zero _)
      · have hb : b % (a + 1) < a + 1 := Nat.mod_lt _ (Nat.succ_pos a)
        show (_, _, _) = (_, _, _)
        rw [ih f2 (b % (a + 1)) (a + 1) (by omega) (by omega)]

/-- The function `extended_gcd` satisfies the source's recursion
`extended_gcd(a, b) = (g, y1 - (b // a) * x1, x1)` with
`(g, x1, y1) = extended_gcd(b % a, a)`: the fuel in `egcdAux` is
irrelevant, so the Python recursion terminates and is faithfully embedded. -/
lemma extended_gcd_rec_eq (a b : Nat) (ha : a ≠ 0) :
    extended_gcd a b
      = ((extended_gcd (b % a) a).1,
         (extended_gcd (b % a) a).2.2
           - ((b / a : Nat) : Int) * (extended_gcd (b % a) a).2.1,
         (extended_gcd (b % a) a).2.1) := by
  rcases a with _ | a
  · exact absurd rfl ha
  · show egcdAux (a + 2) (a + 1) b = _
    have hb : b % (a + 1) < a + 1 := Nat.mod_lt _ (Nat.succ_pos a)
    show (_, _, _) = (_, _, _)
    rw [egcdAux_fuel (a + 1) (b % (a + 1) + 1) (b % (a + 1)) (a + 1) (by omega) (by omega)]
    rfl

lemma modular_inverse_eq_none_iff (a m : Nat) :
    modular_inverse a m = none ↔ Nat.gcd a m ≠ 1 := by
  unfold modular_inverse
  rw [(extended_gcd_spec a m).1]
  split
  next hc => simpa using hc
  next hc => simpa using not_not.mp hc

lemma modular_inverse_isSome_iff (a m : Nat) :
    (modular_inverse a m).isSome = true ↔ Nat.gcd a m = 1 := by
  rcases h : modular_inverse a m with _ | i
  · rw [modular_inverse_eq_none_iff] at h
    simp [h]
  · have : ¬ modular_inverse a m = none := by simp [h]
    rw [modular_inverse_eq_none_iff] at this
    simpa using not_not.mp this

lemma modular_inverse_spec (a m : Nat) (i : Int) (hm : 0 < m)
    (h : modular_inverse a m = some i) :
    0 ≤ i ∧ i < (m : Int) ∧ (a : Int) * i ≡ 1 [ZMOD (m : Int)] ∧ Nat.gcd a m = 1 := by
  have hg : Nat.gcd a m = 1 := by
    have : (modular_inverse a m).isSome = true := by simp [h]
    exact (modular_inverse_isSome_iff a m).mp this
  unfold modular_inverse at h
  rw [(extended_gcd_spec a m).1, if_neg (by simpa using hg)] at h
  simp only [Option.some.injEq] at h
  have hm0 : (m : Int) ≠ 0 := by exact_mod_cast hm.ne'
  have hbez := (extended_gcd_spec a m).2
  refine ⟨h ▸ Int.emod_nonneg _ hm0, h ▸ Int.emod_lt_of_pos _ (by exact_mod_cast hm), ?_, hg⟩
  have h1 : (a : Int) * i ≡ (a : Int) * (extended_gcd a m).2.1 [ZMOD (m : Int)] := by
    rw [← h]
    exact (Int.mod_modEq _ _).mul_left _
  have h2 : (a : Int) * (extended_gcd a m).2.1
      ≡ (a : Int) * (extended_gcd a m).2.1 + (m : Int) * (extended_gcd a m).2.2
        [ZMOD (m : Int)] := by
    have : (m : Int) * (extended_gcd a m).2.2 ≡ 0 [ZMOD (m : Int)] :=
      (Int.modEq_zero_iff_dvd).mpr ⟨_, rfl⟩
    simpa using ((Int.ModEq.refl ((a : Int) * (extended_gcd a m).2.1)).add this).symm
  have h3 : (a : Int) * (extended_gcd a m).2.1 + (m : Int) * (extended_gcd a m).2.2
      = (1 : Int) := by
    rw [hbez, hg]; norm_num
  exact (h1.trans h2).trans (by rw [h3])

/-!
## Character-class facts
-/

lemma pyLower_mem (c : Nat) (hc : pyIsAlpha c = true) :
    97 ≤ pyLower c ∧ pyLower c ≤ 122 := by
  simp only [pyIsAlpha, decide_eq_true_eq] at hc
  unfold pyLower
  rcases hc with h | h
  · rw [if_pos h]; omega
  · rw [if_neg (by omega)]; omega

lemma pyLower_of_upper (c : Nat) (h : pyIsUpper c = true) : pyLower c = c + 32 := by
  simp only [pyIsUpper, decide_eq_true_eq] at h
  unfold pyLower
  rw [if_pos h]

lemma pyLower_of_lower (c : Nat) (hc : pyIsAlpha c = true) (h : pyIsUpper c = false) :
    pyLower c = c ∧ 97 ≤ c ∧ c ≤ 122 := by
  simp only [pyIsAlpha, decide_eq_true_eq] at hc
  simp only [pyIsUpper, decide_eq_false_iff_not, decide_eq_true_eq] at h
  unfold pyLower
  rw [if_neg (by omega)]
  omega

lemma pyLower_of_high (x : Nat) (h : 90 < x) : pyLower x = x := by
  unfold pyLower
  rw [if_neg (by omega)]

lemma pyUpper_of_az (x : Nat) (h1 : 97 ≤ x) (h2 : x ≤ 122) : pyUpper x = x - 32 := by
  unfold pyUpper
  rw [if_pos ⟨h1, h2⟩]

lemma pyUpper_of_high (x : Nat) (h : 122 < x) : pyUpper x = x := by
  unfold pyUpper
  rw [if_neg (by omega)]

/-!
## `decrypt` as a total map when the inverse exists
-/

lemma decrypt_eq_some (m k : Nat) (shift i : Int)
    (hinv : modular_inverse k m = some i) :
    ∀ ct : PyStr, decrypt m shift k ct = some (decryptF m shift i ct) := by
  intro ct
  induction ct with
  | nil => simp [decrypt, decryptF]
  | cons c cs ih =>
    cases hA : pyIsAlpha c <;>
      simp [decrypt, decryptChar, hA, hinv, ih, decryptF]

lemma decrypt_eq_none (m k : Nat) (shift : Int)
    (hinv : modular_inverse k m = none) :
    ∀ ct : PyStr, (∃ c ∈ ct, pyIsAlpha c = true) → decrypt m shift k ct = none := by
  intro ct
  induction ct with
  | nil => rintro ⟨c, hc, -⟩; cases hc
  | cons c cs ih =>
    rintro ⟨d, hd, hA⟩
    rcases List.mem_cons.mp hd with rfl | hd2
    · simp [decrypt, decryptChar, hA, hinv]
    · have hrec := ih ⟨d, hd2, hA⟩
      cases hC : decryptChar m shift k c <;> simp [decrypt, hC, hrec]

lemma modular_inverse_of_gcd_one (k m : Nat) (hk : Nat.gcd k m = 1) :
    ∃ i : Int, modular_inverse k m = some i := by
  have h := (modular_inverse_isSome_iff k m).mpr hk
  rcases hmi : modular_inverse k m with _ | i
  · rw [hmi] at h; simp at h
  · exact ⟨i, rfl⟩

/-!
## The modular round-trip computation
-/

lemma key_emod (m k shift i0 : Nat) (i : Int) (hm : 0 < m)
    (hki : (k : Int) * i ≡ 1 [ZMOD (m : Int)]) (hi0 : i0 < m) :
    ((((i0 * k + shift) % m : Nat) : Int) - (shift : Int)) * i % (m : Int) = (i0 : Int) := by
  have h1 : (((i0 * k + shift) % m : Nat) : Int)
      ≡ ((i0 * k + shift : Nat) : Int) [ZMOD (m : Int)] := by
    rw [Int.natCast_mod]
    exact Int.mod_modEq _ _
  have hxy : ((i0 * k + shift : Nat) : Int) - (shift : Int) = (i0 : Int) * (k : Int) := by
    push_cast; ring
  have h2 := (h1.sub (Int.ModEq.refl (shift : Int))).mul_right i
  rw [hxy] at h2
  have h3 : (i0 : Int) * (k : Int) * i ≡ (i0 : Int) * 1 [ZMOD (m : Int)] := by
    have := hki.mul_left (i0 : Int)
    calc (i0 : Int) * (k : Int) * i = (i0 : Int) * ((k : Int) * i) := by ring
    _ ≡ (i0 : Int) * 1 [ZMOD (m : Int)] := this
  have h4 := h2.trans h3
  unfold Int.ModEq at h4
  rw [mul_one] at h4
  rw [h4, Int.emod_eq_of_lt (by positivity) (by exact_mod_cast hi0)]

lemma affChar_eval (m : Nat) (shift i : Int) (c : Nat) (e : Nat)
    (h : (((pyLower c : Int) - 97 - shift) * i) % (m : Int) = (e : Int)) :
    affChar m shift i c = if pyIsUpper c then pyUpper (e + 97) else e + 97 := by
  simp only [affChar]
  rw [h]
  have h2 : ((e : Int) + 97).toNat = e + 97 := by omega
  rw [h2]

lemma roundtrip_char (m k shift : Nat) (i : Int) (c : Nat)
    (hm : 0 < m) (hm26 : m ≤ 26)
    (hki : (k : Int) * i ≡ 1 [ZMOD (m : Int)])
    (hc : pyIsAlpha c = true) (hidx : pyLower c - 97 < m) :
    pyIsAlpha (encryptChar m k shift c) = true ∧
      affChar m (shift : Int) i (encryptChar m k shift c) = c := by
  have hu := pyLower_mem c hc
  have hkey := key_emod m k shift (pyLower c - 97) i hm hki hidx
  have he0lt : ((pyLower c - 97) * k + shift) % m < m := Nat.mod_lt _ hm
  cases hU : pyIsUpper c with
  | true =>
    have hcu : 65 ≤ c ∧ c ≤ 90 := by
      simpa only [pyIsUpper, decide_eq_true_eq] using hU
    have hl : pyLower c = c + 32 := pyLower_of_upper c hU
    have henc : encryptChar m k shift c = ((pyLower c - 97) * k + shift) % m + 65 := by
      unfold encryptChar
      rw [if_pos hc, if_pos hU, pyUpper_of_az _ (by omega) (by omega)]
      omega
    have hU2 : pyIsUpper (((pyLower c - 97) * k + shift) % m + 65) = true := by
      simp only [pyIsUpper, decide_eq_true_eq]
      omega
    have hl2 : pyLower (((pyLower c - 97) * k + shift) % m + 65)
        = ((pyLower c - 97) * k + shift) % m + 65 + 32 := pyLower_of_upper _ hU2
    have harg : (((pyLower (((pyLower c - 97) * k + shift) % m + 65) : Int) - 97
        - (shift : Int)) * i) % (m : Int) = ((pyLower c - 97 : Nat) : Int) := by
      rw [hl2]
      have hstep : ((((pyLower c - 97) * k + shift) % m + 65 + 32 : Nat) : Int) - 97
            - (shift : Int)
          = ((((pyLower c - 97) * k + shift) % m : Nat) : Int) - (shift : Int) := by
        push_cast; ring
      rw [hstep, hkey]
    constructor
    · rw [henc]
      simp only [pyIsAlpha, decide_eq_true_eq]
      left
      omega
    · rw [henc]
      rw [affChar_eval m (shift : Int) i _ (pyLower c - 97) harg, hU2, if_pos rfl,
        pyUpper_of_az _ (by omega) (by omega), hl]
      omega
  | false =>
    have hcl := pyLower_of_lower c hc hU
    have henc : encryptChar m k shift c = ((pyLower c - 97) * k + shift) % m + 97 := by
      unfold encryptChar
      rw [if_pos hc, hU, if_neg (by simp)]
    have hU2 : pyIsUpper (((pyLower c - 97) * k + shift) % m + 97) = false := by
      simp only [pyIsUpper, decide_eq_false_iff_not]
      omega
    have hl2 : pyLower (((pyLower c - 97) * k + shift) % m + 97)
        = ((pyLower c - 97) * k + shift) % m + 97 := pyLower_of_high _ (by omega)
    have harg : (((pyLower (((pyLower c - 97) * k + shift) % m + 97) : Int) - 97
        - (shift : Int)) * i) % (m : Int) = ((pyLower c - 97 : Nat) : Int) := by
      rw [hl2]
      have hstep : ((((pyLower c - 97) * k + shift) % m + 97 : Nat) : Int) - 97 - (shift : Int)
          = ((((pyLower c - 97) * k + shift) % m : Nat) : Int) - (shift : Int) := by
        push_cast; ring
      rw [hstep, hkey]
    constructor
    · rw [henc]
      simp only [pyIsAlpha, decide_eq_true_eq]
      right
      omega
    · rw [henc]
      rw [affChar_eval m (shift : Int) i _ (pyLower c - 97) harg, hU2, if_neg (by simp)]
      omega

lemma forall₂_map_self (R : Nat → Nat → Prop) (f : Nat → Nat) (l : List Nat)
    (h : ∀ c ∈ l, R c (f c)) : List.Forall₂ R l (l.map f) := by
  induction l with
  | nil => exact List.Forall₂.nil
  | cons c cs ih =>
    exact List.Forall₂.cons (h c (List.mem_cons_self c cs))
      (ih (fun d hd => h d (List.mem_cons_of_mem c hd)))

/-- C1 (corrected): the round trip through the forward affine transform
recovers the plaintext once the alphabet fits inside `a`..`z` (`m ≤ 26`) and
every alphabetic plaintext character has alphabet index below `m`; without
those two extra conditions the claim is false (`C1_counterexample`). -/
theorem C1_amended_roundtrip (m k shift : Nat) (pt : PyStr)
    (hm2 : 2 ≤ m) (hm26 : m ≤ 26) (hk : Nat.gcd k m = 1) (hs : shift < m)
    (hpt : ∀ c ∈ pt, pyIsAlpha c = true → pyLower c - 97 < m) :
    decrypt m (shift : Int) k (encrypt m k shift pt) = some pt := by
  have hm : 0 < m := by omega
  obtain ⟨i, hi⟩ := modular_inverse_of_gcd_one k m hk
  obtain ⟨hnn, hlt, hki, -⟩ := modular_inverse_spec k m i hm hi
  rw [decrypt_eq_some m k (shift : Int) i hi]
  congr 1
  unfold encrypt decryptF
  rw [List.map_map]
  have hpoint : ∀ c ∈ pt,
      ((fun c => if pyIsAlpha c then affChar m (shift : Int) i c else c)
        ∘ encryptChar m k shift) c = id c := by
    intro c hcmem
    cases hA : pyIsAlpha c with
    | true =>
      obtain ⟨hEA, hED⟩ := roundtrip_char m k shift i c hm hm26 hki hA (hpt c hcmem hA)
      simp only [Function.comp_apply, id_eq]
      rw [hEA, if_pos rfl]
      exact hED
    | false =>
      have hencc : encryptChar m k shift c = c := by
        unfold encryptChar
        rw [if_neg (by simp [hA])]
      simp only [Function.comp_apply, id_eq]
      rw [hencc, hA, if_neg (by simp)]
  have hmaps := List.map_eq_map_iff.mpr hpoint
  simpa using hmaps

/-- C1 witness: alphabet size 26, key (shift 3, multiplier 5),
plaintext "The cat". -/
theorem C1_amended_roundtrip_witness :
    decrypt 26 (3 : Int) 5 (encrypt 26 5 3 [84, 104, 101, 32, 99, 97, 116])
      = some [84, 104, 101, 32, 99, 97, 116] :=
  C1_amended_roundtrip 26 5 3 [84, 104, 101, 32, 99, 97, 116]
    (by decide) (by decide) (by decide) (by decide) (by decide)

/-- C1 counterexample: alphabet size 2, a valid key, and the plaintext "c"
(alphabet index 2, outside the alphabet) do not round-trip: the spec's claim
quantifies over every alphabet size `m ≥ 2` and every plaintext string, and
fails here. -/
theorem C1_counterexample :
    2 ≤ 2 ∧ Nat.gcd 1 2 = 1 ∧ 0 < 2 ∧
      decrypt 2 (0 : Int) 1 (encrypt 2 1 0 [99]) ≠ some [99] := by
  decide

/-- C2 (confirmed): for `1 ≤ a < m`, `m ≥ 2`, `modular_inverse` returns
`None` exactly when `gcd(a, m) ≠ 1`, and otherwise a value in `[0, m)` that
is a multiplicative inverse of `a` mod `m`. -/
theorem C2_modular_inverse_spec (a m : Nat) (ha1 : 1 ≤ a) (ha2 : a < m) (hm : 2 ≤ m) :
    (modular_inverse a m = none ↔ Nat.gcd a m ≠ 1) ∧
      ∀ x : Int, modular_inverse a m = some x →
        0 ≤ x ∧ x < (m : Int) ∧ ((a : Int) * x) % (m : Int) = 1 := by
  refine ⟨modular_inverse_eq_none_iff a m, fun x hx => ?_⟩
  obtain ⟨h1, h2, h3, -⟩ := modular_inverse_spec a m x (by omega) hx
  refine ⟨h1, h2, ?_⟩
  unfold Int.ModEq at h3
  rw [h3]
  exact Int.emod_eq_of_lt (by norm_num) (by exact_mod_cast (by omega : 1 < m))

/-- C2 witness: `modular_inverse 3 26 = some 9` and `3 * 9 % 26 = 1`. -/
theorem C2_modular_inverse_spec_witness :
    (0 : Int) ≤ 9 ∧ (9 : Int) < 26 ∧ ((3 : Int) * 9) % 26 = 1 :=
  (C2_modular_inverse_spec 3 26 (by decide) (by decide) (by decide)).2 9 (by decide)

/-- C5 (confirmed): under a valid key, `decrypt` succeeds, preserves the
length, and copies every non-alphabetic character unchanged at its
position. -/
theorem C5_decrypt_shape (m k : Nat) (shift i : Int) (ct : PyStr)
    (hm : 0 < m) (hk : Nat.gcd k m = 1) (hinv : modular_inverse k m = some i) :
    decrypt m shift k ct = some (decryptF m shift i ct) ∧
      (decryptF m shift i ct).length = ct.length ∧
      List.Forall₂ (fun c d => pyIsAlpha c = false → d = c) ct (decryptF m shift i ct) := by
  refine ⟨decrypt_eq_some m k shift i hinv ct, by simp [decryptF], ?_⟩
  unfold decryptF
  apply forall₂_map_self
  intro c hcmem hA
  rw [if_neg (by simp [hA])]

/-- C5 witness: alphabet size 26, key (shift 5, multiplier 3),
ciphertext "a!". -/
theorem C5_decrypt_shape_witness :
    decrypt 26 (5 : Int) 3 [97, 33] = some (decryptF 26 5 9 [97, 33]) ∧
      (decryptF 26 5 9 [97, 33]).length = ([97, 33] : PyStr).length ∧
      List.Forall₂ (fun c d => pyIsAlpha c = false → d = c) [97, 33]
        (decryptF 26 5 9 [97, 33]) :=
  C5_decrypt_shape 26 3 5 9 [97, 33] (by decide) (by decide) (by decide)

/-- C9 (confirmed): with a coprime multiplier every `modular_inverse` call
inside `decrypt` succeeds and `decrypt` is total; with a non-coprime
multiplier, `decrypt` hits the `None` branch (Python: `TypeError`) as soon
as the ciphertext contains an alphabetic character. -/
theorem C9_decrypt_safety (m k : Nat) (shift : Int) (hm : 0 < m) :
    (Nat.gcd k m = 1 →
        (modular_inverse k m).isSome = true ∧
          ∀ ct : PyStr, (decrypt m shift k ct).isSome = true) ∧
      (Nat.gcd k m ≠ 1 →
        modular_inverse k m = none ∧
          ∀ ct : PyStr, (∃ c ∈ ct, pyIsAlpha c = true) → decrypt m shift k ct = none) := by
  constructor
  · intro hk
    obtain ⟨i, hi⟩ := modular_inverse_of_gcd_one k m hk
    refine ⟨by simp [hi], fun ct => ?_⟩
    rw [decrypt_eq_some m k shift i hi]
    rfl
  · intro hk
    have hnone : modular_inverse k m = none := (modular_inverse_eq_none_iff k m).mpr hk
    exact ⟨hnone, fun ct h => decrypt_eq_none m k shift hnone ct h⟩

/-- C9 witness: multiplier 2 is not coprime with 26 and the ciphertext "a"
is alphabetic, so `decrypt` fails. -/
theorem C9_decrypt_safety_witness : decrypt 26 (0 : Int) 2 [97] = none :=
  ((C9_decrypt_safety 26 2 0 (by decide)).2 (by decide)).2 [97] (by decide)

/-- C6 (corrected): for a valid key and alphabet size `2 ≤ m ≤ 26`, `decrypt`
maps uppercase ciphertext letters to uppercase letters and lowercase to
lowercase, position by position; without `m ≤ 26` the claim is false
(`C6_counterexample`). -/
theorem C6_amended_case (m k : Nat) (shift i : Int) (ct : PyStr)
    (hm2 : 2 ≤ m) (hm26 : m ≤ 26) (hk : Nat.gcd k m = 1)
    (hinv : modular_inverse k m = some i) :
    decrypt m shift k ct = some (decryptF m shift i ct) ∧
      List.Forall₂ (fun c d =>
        (pyIsUpper c = true → pyIsUpper d = true) ∧
          (pyIsLowerAZ c = true → pyIsLowerAZ d = true)) ct (decryptF m shift i ct) := by
  refine ⟨decrypt_eq_some m k shift i hinv ct, ?_⟩
  unfold decryptF
  apply forall₂_map_self
  intro c hcmem
  cases hA : pyIsAlpha c with
  | false =>
    rw [if_neg (by simp [hA])]
    exact ⟨fun h => h, fun h => h⟩
  | true =>
    rw [if_pos rfl]
    have hm0 : (0 : Int) < (m : Int) := by exact_mod_cast (by omega : 0 < m)
    have hE0 : 0 ≤ (((pyLower c : Int) - 97 - shift) * i) % (m : Int) :=
      Int.emod_nonneg _ hm0.ne'
    have hElt : (((pyLower c : Int) - 97 - shift) * i) % (m : Int) < (m : Int) :=
      Int.emod_lt_of_pos _ hm0
    have hm26i : (m : Int) ≤ 26 := by exact_mod_cast hm26
    have harg : (((pyLower c : Int) - 97 - shift) * i) % (m : Int)
        = (((((pyLower c : Int) - 97 - shift) * i) % (m : Int)).toNat : Int) := by
      omega
    rw [affChar_eval m shift i c _ harg]
    cases hU : pyIsUpper c with
    | true =>
      rw [if_pos rfl]
      constructor
      · intro h2
        rw [pyUpper_of_az _ (by omega) (by omega)]
        simp only [pyIsUpper, decide_eq_true_eq]
        omega
      · intro hLc
        exfalso
        simp only [pyIsUpper, decide_eq_true_eq] at hU
        simp only [pyIsLowerAZ, decide_eq_true_eq] at hLc
        omega
    | false =>
      rw [if_neg (by simp)]
      constructor
      · intro hUc
        exact absurd hUc (by simp [hU])
      · intro h2
        simp only [pyIsLowerAZ, decide_eq_true_eq]
        omega

/-- C6 witness: alphabet size 26, multiplier 3 (inverse 9), ciphertext "Ab". -/
theorem C6_amended_case_witness :
    decrypt 26 (1 : Int) 3 [65, 98] = some (decryptF 26 1 9 [65, 98]) ∧
      List.Forall₂ (fun c d =>
        (pyIsUpper c = true → pyIsUpper d = true) ∧
          (pyIsLowerAZ c = true → pyIsLowerAZ d = true)) [65, 98]
        (decryptF 26 1 9 [65, 98]) :=
  C6_amended_case 26 3 1 9 [65, 98] (by decide) (by decide) (by decide) (by decide)

/-- C6 counterexample: with alphabet size 27 the valid key (shift 1,
multiplier 1) decrypts the uppercase letter 'A' to the character '{'
(code 123), which is not an uppercase letter, so the claim as stated (for
every alphabet size) is false. -/
theorem C6_counterexample :
    Nat.gcd 1 27 = 1 ∧ 0 ≤ (1 : Int) ∧ (1 : Int) < 27 ∧ pyIsAlpha 65 = true ∧
      pyIsUpper 65 = true ∧ decrypt 27 (1 : Int) 1 [65] = some [123] ∧
      pyIsUpper 123 = false ∧ pyIsLowerAZ 123 = false := by
  decide

/-!
## Injectivity analysis of the key-to-plaintext map (C8)
-/

lemma pyUpper_inj_high (x y : Nat) (hx : 97 ≤ x) (hy : 97 ≤ y)
    (h : pyUpper x = pyUpper y) : x = y := by
  unfold pyUpper at h
  split_ifs at h <;> omega

lemma affChar_congr (m : Nat) (s1 s2 i1 i2 : Int) (c : Nat) (hm : 0 < m)
    (hc : pyIsAlpha c = true)
    (h : affChar m s1 i1 c = affChar m s2 i2 c) :
    ((pyLower c : Int) - 97 - s1) * i1 ≡ ((pyLower c : Int) - 97 - s2) * i2
      [ZMOD (m : Int)] := by
  have hm0 : (0 : Int) < (m : Int) := by exact_mod_cast hm
  have h1 : 0 ≤ (((pyLower c : Int) - 97 - s1) * i1) % (m : Int) :=
    Int.emod_nonneg _ hm0.ne'
  have h2 : 0 ≤ (((pyLower c : Int) - 97 - s2) * i2) % (m : Int) :=
    Int.emod_nonneg _ hm0.ne'
  unfold Int.ModEq
  cases hU : pyIsUpper c with
  | true =>
    simp only [affChar, hU, if_true] at h
    have := pyUpper_inj_high _ _ (by omega) (by omega) h
    omega
  | false =>
    simp only [affChar, hU, Bool.false_eq_true, if_false] at h
    omega

lemma gcd_of_inverse (m k : Nat) (i : Int) (h : (k : Int) * i ≡ 1 [ZMOD (m : Int)]) :
    Int.gcd (m : Int) i = 1 := by
  have hdvd : (m : Int) ∣ 1 - (k : Int) * i := h.dvd
  have hd1 : ((Int.gcd (m : Int) i : Nat) : Int) ∣ 1 - (k : Int) * i :=
    dvd_trans Int.gcd_dvd_left hdvd
  have hd2 : ((Int.gcd (m : Int) i : Nat) : Int) ∣ (k : Int) * i :=
    Dvd.dvd.mul_left Int.gcd_dvd_right _
  have hd3 : ((Int.gcd (m : Int) i : Nat) : Int) ∣ ((1 : Nat) : Int) := by
    have := Dvd.dvd.add hd2 hd1
    simpa using this
  exact Nat.dvd_one.mp (Int.natCast_dvd_natCast.mp hd3)

/-- C8 (corrected): the key-to-plaintext map is injective once the ciphertext
contains two alphabetic characters whose alphabet positions differ by a unit
mod `m`; the original claim, which asks for injectivity whenever at least one
alphabetic character is present, is false (`C8_counterexample`). -/
theorem C8_amended_injective (m k1 k2 : Nat) (s1 s2 : Int) (ct : PyStr)
    (hm : 0 < m)
    (hs1 : 0 ≤ s1) (hs1m : s1 < (m : Int)) (hs2 : 0 ≤ s2) (hs2m : s2 < (m : Int))
    (hk1 : 1 ≤ k1) (hk1m : k1 < m) (hk2 : 1 ≤ k2) (hk2m : k2 < m)
    (hg1 : Nat.gcd k1 m = 1) (hg2 : Nat.gcd k2 m = 1)
    (hsep : ∃ c1 ∈ ct, ∃ c2 ∈ ct, pyIsAlpha c1 = true ∧ pyIsAlpha c2 = true ∧
      Int.gcd ((pyLower c1 : Int) - (pyLower c2 : Int)) (m : Int) = 1)
    (heq : decrypt m s1 k1 ct = decrypt m s2 k2 ct) :
    s1 = s2 ∧ k1 = k2 := by
  have hm0 : (0 : Int) < (m : Int) := by exact_mod_cast hm
  obtain ⟨i1, hi1⟩ := modular_inverse_of_gcd_one k1 m hg1
  obtain ⟨i2, hi2⟩ := modular_inverse_of_gcd_one k2 m hg2
  obtain ⟨-, -, hki1, -⟩ := modular_inverse_spec k1 m i1 hm hi1
  obtain ⟨-, -, hki2, -⟩ := modular_inverse_spec k2 m i2 hm hi2
  rw [decrypt_eq_some m k1 s1 i1 hi1 ct, decrypt_eq_some m k2 s2 i2 hi2 ct] at heq
  have hmap := List.map_eq_map_iff.mp (Option.some.inj heq)
  obtain ⟨c1, hc1m, c2, hc2m, hA1, hA2, hgcd12⟩ := hsep
  have hcong1 : ((pyLower c1 : Int) - 97 - s1) * i1
      ≡ ((pyLower c1 : Int) - 97 - s2) * i2 [ZMOD (m : Int)] :=
    affChar_congr m s1 s2 i1 i2 c1 hm hA1 (by simpa [hA1] using hmap c1 hc1m)
  have hcong2 : ((pyLower c2 : Int) - 97 - s1) * i1
      ≡ ((pyLower c2 : Int) - 97 - s2) * i2 [ZMOD (m : Int)] :=
    affChar_congr m s1 s2 i1 i2 c2 hm hA2 (by simpa [hA2] using hmap c2 hc2m)
  have hsub := hcong1.sub hcong2
  have hL : ((pyLower c1 : Int) - 97 - s1) * i1 - ((pyLower c2 : Int) - 97 - s1) * i1
      = ((pyLower c1 : Int) - (pyLower c2 : Int)) * i1 := by ring
  have hR : ((pyLower c1 : Int) - 97 - s2) * i2 - ((pyLower c2 : Int) - 97 - s2) * i2
      = ((pyLower c1 : Int) - (pyLower c2 : Int)) * i2 := by ring
  rw [hL, hR] at hsub
  have hii : i1 ≡ i2 [ZMOD (m : Int)] := by
    have hstep := Int.ModEq.cancel_left_div_gcd hm0 hsub
    rw [Int.gcd_comm ((m : Int)) _, hgcd12] at hstep
    simpa using hstep
  have hk12 : (k1 : Int) ≡ (k2 : Int) [ZMOD (m : Int)] := by
    calc (k1 : Int) = (k1 : Int) * 1 := by ring
    _ ≡ (k1 : Int) * ((k2 : Int) * i2) [ZMOD (m : Int)] := hki2.symm.mul_left _
    _ = (k2 : Int) * ((k1 : Int) * i2) := by ring
    _ ≡ (k2 : Int) * ((k1 : Int) * i1) [ZMOD (m : Int)] :=
      ((hii.symm.mul_left ((k1 : Int))).mul_left ((k2 : Int)))
    _ ≡ (k2 : Int) * 1 [ZMOD (m : Int)] := hki1.mul_left _
    _ = (k2 : Int) := by ring
  have hkeq : k1 = k2 := by
    have h1 : (k1 : Int) % (m : Int) = (k1 : Int) :=
      Int.emod_eq_of_lt (by positivity) (by exact_mod_cast hk1m)
    have h2 : (k2 : Int) % (m : Int) = (k2 : Int) :=
      Int.emod_eq_of_lt (by positivity) (by exact_mod_cast hk2m)
    unfold Int.ModEq at hk12
    rw [h1, h2] at hk12
    exact_mod_cast hk12
  have hgi1 : Int.gcd (m : Int) i1 = 1 := gcd_of_inverse m k1 i1 hki1
  have hshift : ((pyLower c1 : Int) - 97 - s1) ≡ ((pyLower c1 : Int) - 97 - s2)
      [ZMOD (m : Int)] := by
    have ha := hcong1.trans (hii.symm.mul_left ((pyLower c1 : Int) - 97 - s2))
    have hL2 : ((pyLower c1 : Int) - 97 - s1) * i1
        = i1 * ((pyLower c1 : Int) - 97 - s1) := by ring
    have hR2 : ((pyLower c1 : Int) - 97 - s2) * i1
        = i1 * ((pyLower c1 : Int) - 97 - s2) := by ring
    rw [hL2, hR2] at ha
    have hstep := Int.ModEq.cancel_left_div_gcd hm0 ha
    rw [hgi1] at hstep
    simpa using hstep
  have hseq : s1 ≡ s2 [ZMOD (m : Int)] := by
    have := (Int.ModEq.refl ((pyLower c1 : Int) - 97)).sub hshift
    have hL3 : ((pyLower c1 : Int) - 97) - ((pyLower c1 : Int) - 97 - s1) = s1 := by ring
    have hR3 : ((pyLower c1 : Int) - 97) - ((pyLower c1 : Int) - 97 - s2) = s2 := by ring
    rw [hL3, hR3] at this
    exact this
  have hseq2 : s1 = s2 := by
    have h1 := Int.emod_eq_of_lt hs1 hs1m
    have h2 := Int.emod_eq_of_lt hs2 hs2m
    unfold Int.ModEq at hseq
    rw [h1, h2] at hseq
    exact hseq
  exact ⟨hseq2, hkeq⟩

/-- C8 witness: ciphertext "ab" (indices 0 and 1 differ by a unit mod 26);
equal keys trivially satisfy the equal-decryption hypothesis. -/
theorem C8_amended_injective_witness : (0 : Int) = 0 ∧ (1 : Nat) = 1 :=
  C8_amended_injective 26 1 1 0 0 [97, 98] (by decide) (by decide) (by decide)
    (by decide) (by decide) (by decide) (by decide) (by decide) (by decide)
    (by decide) (by decide) (by decide) rfl

/-- C8 counterexample: the ciphertext "a" contains an alphabetic character,
yet the distinct valid keys (shift 0, multiplier 1) and (shift 0,
multiplier 3) decrypt it to the same plaintext, refuting the claimed
injectivity. -/
theorem C8_counterexample :
    Nat.gcd 1 26 = 1 ∧ Nat.gcd 3 26 = 1 ∧ (1 : Nat) ≠ 3 ∧ pyIsAlpha 97 = true ∧
      decrypt 26 (0 : Int) 1 [97] = decrypt 26 (0 : Int) 3 [97] := by
  decide

/-!
## Characterisation of the scoring tokenizer (C3)
-/

lemma az_word (c : Nat) (h : pyIsLowerAZ c = true) : pyIsWordChar c = true := by
  simp only [pyIsLowerAZ, decide_eq_true_eq] at h
  simp only [pyIsWordChar, pyIsAlpha, pyIsDigit, Bool.or_eq_true, decide_eq_true_eq,
    beq_iff_eq]
  omega

lemma scan_runs : ∀ cs : List Nat,
    (scanAux false none cs
      = (runsAux pyIsWordChar none cs).filter (fun w => w.all pyIsLowerAZ)) ∧
    (∀ t : List Nat, t ≠ [] → t.all pyIsLowerAZ = true →
      scanAux true (some t) cs
        = (runsAux pyIsWordChar (some t) cs).filter (fun w => w.all pyIsLowerAZ)) ∧
    (∀ t : List Nat, t.all pyIsLowerAZ = false →
      scanAux true none cs
        = (runsAux pyIsWordChar (some t) cs).filter (fun w => w.all pyIsLowerAZ)) := by
  intro cs
  induction cs with
  | nil =>
    refine ⟨rfl, ?_, ?_⟩
    · intro t ht hall
      simp [scanAux, runsAux, List.all_reverse, hall]
    · intro t hall
      simp [scanAux, runsAux, List.all_reverse, hall]
  | cons c cs ih =>
    obtain ⟨ih0, ih1, ih2⟩ := ih
    refine ⟨?_, ?_, ?_⟩
    · cases haz : pyIsLowerAZ c with
      | true =>
        have hw := az_word c haz
        simp only [scanAux, runsAux, haz, hw, Bool.not_false, Bool.true_and, if_true]
        exact ih1 [c] (by simp) (by simp [haz])
      | false =>
        cases hw : pyIsWordChar c with
        | true =>
          simp only [scanAux, runsAux, haz, hw, Bool.not_false, Bool.true_and,
            Bool.false_eq_true, if_false, if_true]
          exact ih2 [c] (by simp [haz])
        | false =>
          simp only [scanAux, runsAux, haz, hw, Bool.not_false, Bool.true_and,
            Bool.false_eq_true, if_false]
          exact ih0
    · intro t ht hall
      cases haz : pyIsLowerAZ c with
      | true =>
        have hw := az_word c haz
        simp only [scanAux, runsAux, haz, hw, if_true]
        exact ih1 (c :: t) (by simp) (by simp [haz, hall])
      | false =>
        cases hw : pyIsWordChar c with
        | true =>
          simp only [scanAux, runsAux, haz, hw, Bool.false_eq_true, if_false, if_true]
          exact ih2 (c :: t) (by simp [haz])
        | false =>
          simp only [scanAux, runsAux, haz, hw, Bool.false_eq_true, if_false]
          rw [List.filter_cons]
          simp only [List.all_reverse, hall, if_true]
          rw [ih0]
    · intro t hall
      cases hw : pyIsWordChar c with
      | true =>
        have haz2 : (c :: t).all pyIsLowerAZ = false := by simp [hall]
        simp only [scanAux, runsAux, hw, Bool.not_true, Bool.false_and,
          Bool.false_eq_true, if_false, if_true]
        exact ih2 (c :: t) haz2
      | false =>
        have haz : pyIsLowerAZ c = false := by
          cases h2 : pyIsLowerAZ c with
          | true => rw [az_word c h2] at hw; cases hw
          | false => rfl
        simp only [scanAux, runsAux, hw, Bool.not_true, Bool.false_and,
          Bool.false_eq_true, if_false]
        rw [List.filter_cons]
        simp only [List.all_reverse, hall, Bool.false_eq_true, if_false]
        exact ih0

lemma findallWords_eq (s : List Nat) :
    findallWords s = (runsP pyIsWordChar s).filter (fun w => w.all pyIsLowerAZ) :=
  (scan_runs s).1

/-- C3 (corrected): the regex `\b[a-z]+\b` counts the maximal runs of *word*
characters (letters, digits, underscore) of the lowercased plaintext that
consist entirely of letters; a letter run adjacent to a digit or underscore
is not a token, so the claim's "runs bounded by non-alphabetic characters"
reading is false (`C3_counterexample`).  The score is the number of such
tokens that belong to the word bank, and the empty string scores 0. -/
theorem C3_amended_score (bank : List PyStr) (p : PyStr) :
    calculate_score bank p =
      (((runsP pyIsWordChar (p.map pyLower)).filter (fun w => w.all pyIsLowerAZ)).filter
        (fun w => decide (w ∈ bank))).length ∧
      calculate_score bank [] = 0 := by
  constructor
  · unfold calculate_score
    rw [findallWords_eq]
  · rfl

/-- C3 counterexample: the plaintext "a1" has the maximal alphabetic run "a"
(bounded by the non-alphabetic digit '1'), which is in the bank, yet the
regex finds no token because '1' is a word character: the code scores 0
where the claim requires 1. -/
theorem C3_counterexample :
    calculate_score [[97]] [97, 49] = 0 ∧ specScoreAlphaRuns [[97]] [97, 49] = 1 ∧
      calculate_score [[97]] [97, 49] ≠ specScoreAlphaRuns [[97]] [97, 49] := by
  decide

/-!
## The selection pipeline (C4, C7)

`find_possible_plaintext` is rewritten step by step: the inverse check
filters the key list, the decryption fused into the fold gives the candidate
plaintext list, and the dict accumulates exactly the first occurrence of
each plaintext paired with its score.
-/

lemma fpp_fold_eq (m : Nat) (bank : List PyStr) (ct : PyStr) :
    ∀ (keys : List (Nat × Nat)) (d : List (PyStr × Nat)),
      keys.foldl (fun d key =>
        match modular_inverse key.2 m with
        | none => d
        | some _ =>
          match decrypt m (key.1 : Int) key.2 ct with
          | some p => dictInsert d p (calculate_score bank p)
          | none => d) d
      = (keys.filter (fun key => (modular_inverse key.2 m).isSome)).foldl (fun d key =>
          match decrypt m (key.1 : Int) key.2 ct with
          | some p => dictInsert d p (calculate_score bank p)
          | none => d) d := by
  intro keys
  induction keys with
  | nil => intro d; rfl
  | cons key keys ih =>
    intro d
    rw [List.foldl_cons, List.filter_cons]
    cases hmi : modular_inverse key.2 m with
    | none =>
      simp only [hmi, Option.isSome_none, Bool.false_eq_true, if_false]
      exact ih d
    | some i =>
      simp only [hmi, Option.isSome_some, if_true]
      rw [List.foldl_cons]
      exact ih _

lemma fold_decrypt_eq (m : Nat) (bank : List PyStr) (ct : PyStr) :
    ∀ (keys : List (Nat × Nat)) (d : List (PyStr × Nat)),
      keys.foldl (fun d key =>
        match decrypt m (key.1 : Int) key.2 ct with
        | some p => dictInsert d p (calculate_score bank p)
        | none => d) d
      = (keys.filterMap (fun key => decrypt m (key.1 : Int) key.2 ct)).foldl
          (fun d p => dictInsert d p (calculate_score bank p)) d := by
  intro keys
  induction keys with
  | nil => intro d; rfl
  | cons key keys ih =>
    intro d
    rw [List.foldl_cons, List.filterMap_cons]
    cases hdec : decrypt m (key.1 : Int) key.2 ct with
    | none => exact ih d
    | some p =>
      rw [List.foldl_cons]
      exact ih _

lemma fold_dictInsert_eq (f : PyStr → Nat) :
    ∀ (ps : List PyStr) (q : List PyStr),
      ps.foldl (fun d p => dictInsert d p (f p)) (q.map (fun p => (p, f p)))
      = (ps.foldl insertNew q).map (fun p => (p, f p)) := by
  intro ps
  induction ps with
  | nil => intro q; rfl
  | cons p ps ih =>
    intro q
    rw [List.foldl_cons, List.foldl_cons]
    have hstep : dictInsert (q.map (fun p => (p, f p))) p (f p)
        = (insertNew q p).map (fun p => (p, f p)) := by
      unfold dictInsert insertNew
      have hkeys : (q.map (fun p => (p, f p))).map Prod.fst = q := by
        rw [List.map_map, show (Prod.fst ∘ fun p : PyStr => (p, f p)) = id from rfl,
          List.map_id]
      rw [hkeys]
      by_cases hp : p ∈ q
      · rw [if_pos hp, if_pos hp, List.map_map]
        apply List.map_eq_map_iff.mpr
        intro x hx
        by_cases hxp : x = p
        · subst hxp
          simp [Function.comp]
        · simp [Function.comp, hxp]
      · rw [if_neg hp, if_neg hp]
        simp
    rw [hstep, ih (insertNew q p)]

lemma mem_fold_insertNew : ∀ (ps : List PyStr) (q : List PyStr) (x : PyStr),
    x ∈ ps.foldl insertNew q ↔ x ∈ q ∨ x ∈ ps := by
  intro ps
  induction ps with
  | nil => intro q x; simp
  | cons p ps ih =>
    intro q x
    rw [List.foldl_cons, ih]
    unfold insertNew
    by_cases hp : p ∈ q
    · rw [if_pos hp]
      simp only [List.mem_cons]
      constructor
      · rintro (h | h)
        · exact Or.inl h
        · exact Or.inr (Or.inr h)
      · rintro (h | h | h)
        · exact Or.inl h
        · exact Or.inl (h ▸ hp)
        · exact Or.inr h
    · rw [if_neg hp]
      simp [List.mem_append, List.mem_cons, or_assoc]

lemma fold_insertNew_nil_iff (ps : List PyStr) :
    ps.foldl insertNew [] = [] ↔ ps = [] := by
  cases ps with
  | nil => simp
  | cons p ps =>
    constructor
    · intro h
      have hmem : p ∈ (p :: ps).foldl insertNew [] :=
        (mem_fold_insertNew (p :: ps) [] p).mpr (Or.inr (List.mem_cons_self p ps))
      rw [h] at hmem
      cases hmem
    · intro h; cases h

lemma foldl_max_le_iff : ∀ (l : List Nat) (a k : Nat),
    l.foldl max a ≤ k ↔ a ≤ k ∧ ∀ x ∈ l, x ≤ k := by
  intro l
  induction l with
  | nil => intro a k; simp
  | cons b l ih =>
    intro a k
    rw [List.foldl_cons, ih]
    simp [Nat.max_le, List.forall_mem_cons, and_assoc]

lemma listMax_le_iff (l : List Nat) (k : Nat) : listMax l ≤ k ↔ ∀ x ∈ l, x ≤ k := by
  unfold listMax
  rw [foldl_max_le_iff]
  simp

lemma le_listMax (l : List Nat) (x : Nat) (hx : x ∈ l) : x ≤ listMax l :=
  (listMax_le_iff l (listMax l)).mp le_rfl x hx

lemma listMax_congr (l1 l2 : List Nat) (h : ∀ x, x ∈ l1 ↔ x ∈ l2) :
    listMax l1 = listMax l2 := by
  apply le_antisymm
  · rw [listMax_le_iff]
    intro x hx
    exact le_listMax l2 x ((h x).mp hx)
  · rw [listMax_le_iff]
    intro x hx
    exact le_listMax l1 x ((h x).mpr hx)

lemma filter_map_fst (f : PyStr → Nat) (q : List PyStr) (M : Nat) :
    ((q.map (fun p => (p, f p))).filter (fun kv => kv.2 == M)).map Prod.fst
      = q.filter (fun p => f p == M) := by
  induction q with
  | nil => rfl
  | cons p q ih =>
    simp only [List.map_cons, List.filter_cons]
    cases h : f p == M with
    | true => simp only [h, if_true, List.map_cons, ih]
    | false => simp only [h, Bool.false_eq_true, if_false, ih]

lemma mem_validKeys_zero_one (m : Nat) (hm : 2 ≤ m) : (0, 1) ∈ validKeys m := by
  unfold validKeys allKeys
  rw [List.mem_filter]
  constructor
  · rw [List.mem_flatMap]
    refine ⟨0, List.mem_range.mpr (by omega), ?_⟩
    rw [List.mem_map]
    exact ⟨1, List.mem_filter.mpr ⟨List.mem_range.mpr (by omega), by decide⟩, rfl⟩
  · exact (modular_inverse_isSome_iff 1 m).mpr (Nat.gcd_one_left m)

lemma validKey_decrypts (m : Nat) (ct : PyStr) (key : Nat × Nat)
    (hkey : key ∈ validKeys m) :
    ∃ p, decrypt m (key.1 : Int) key.2 ct = some p := by
  have hsome : (modular_inverse key.2 m).isSome = true := (List.mem_filter.mp hkey).2
  rcases hmi : modular_inverse key.2 m with _ | i
  · rw [hmi] at hsome; cases hsome
  · exact ⟨_, decrypt_eq_some m key.2 (key.1 : Int) i hmi ct⟩

lemma candidatePlaintexts_nil_iff (m : Nat) (ct : PyStr) :
    candidatePlaintexts m ct = [] ↔ validKeys m = [] := by
  constructor
  · intro h
    by_contra hne
    obtain ⟨key, hkmem⟩ := List.exists_mem_of_ne_nil _ hne
    obtain ⟨p, hp⟩ := validKey_decrypts m ct key hkmem
    have hmem : p ∈ candidatePlaintexts m ct :=
      List.mem_filterMap.mpr ⟨key, hkmem, hp⟩
    rw [h] at hmem
    cases hmem
  · intro h
    unfold candidatePlaintexts
    rw [h]
    rfl

lemma candidatePlaintexts_ne_nil (m : Nat) (ct : PyStr) (hm : 2 ≤ m) :
    candidatePlaintexts m ct ≠ [] := by
  intro h
  have hvk := (candidatePlaintexts_nil_iff m ct).mp h
  have := mem_validKeys_zero_one m hm
  rw [hvk] at this
  cases this

lemma possible_dict_eq (m : Nat) (bank : List PyStr) (ct : PyStr) :
    possible_plaintext_dict m bank ct
      = (firstOccurrences (candidatePlaintexts m ct)).map
          (fun p => (p, calculate_score bank p)) := by
  unfold possible_plaintext_dict
  rw [fpp_fold_eq m bank ct (allKeys m) [], fold_decrypt_eq m bank ct _ []]
  rw [show List.filter (fun key => (modular_inverse key.2 m).isSome) (allKeys m)
    = validKeys m from rfl]
  rw [show List.filterMap (fun key => decrypt m (key.1 : Int) key.2 ct) (validKeys m)
    = candidatePlaintexts m ct from rfl]
  exact fold_dictInsert_eq (calculate_score bank) (candidatePlaintexts m ct) []

lemma find_possible_plaintext_eq (m : Nat) (bank : List PyStr) (ct : PyStr) :
    find_possible_plaintext m bank ct
      = if candidatePlaintexts m ct = [] then none
        else some ((firstOccurrences (candidatePlaintexts m ct)).filter
          (fun p => calculate_score bank p
            == listMax ((candidatePlaintexts m ct).map (calculate_score bank)))) := by
  unfold find_possible_plaintext
  rw [possible_dict_eq m bank ct]
  have hnil : (firstOccurrences (candidatePlaintexts m ct)).map
        (fun p => (p, calculate_score bank p)) = []
      ↔ candidatePlaintexts m ct = [] := by
    rw [List.map_eq_nil_iff]
    exact fold_insertNew_nil_iff _
  by_cases hps : candidatePlaintexts m ct = []
  · rw [if_pos (hnil.mpr hps), if_pos hps]
  · rw [if_neg (fun h => hps (hnil.mp h)), if_neg hps]
    have hM : (((firstOccurrences (candidatePlaintexts m ct)).map
          (fun p => (p, calculate_score bank p))).map Prod.snd).foldl max 0
        = listMax ((candidatePlaintexts m ct).map (calculate_score bank)) := by
      rw [List.map_map]
      rw [show (Prod.snd ∘ fun p => (p, calculate_score bank p))
        = calculate_score bank from rfl]
      refine listMax_congr _ _ (fun x => ?_)
      simp only [List.mem_map]
      constructor
      · rintro ⟨p, hp, rfl⟩
        exact ⟨p, ((mem_fold_insertNew (candidatePlaintexts m ct) [] p).mp hp).resolve_left
          (by simp), rfl⟩
      · rintro ⟨p, hp, rfl⟩
        exact ⟨p, (mem_fold_insertNew (candidatePlaintexts m ct) [] p).mpr (Or.inr hp), rfl⟩
    rw [hM, filter_map_fst]

/-- C4 (corrected): because the accumulator is a dict keyed by plaintext, the
result contains each *distinct* maximal-scoring plaintext exactly once, in
order of first appearance during the shift-major, multiplier-minor key
enumeration; duplicate plaintexts from different keys are collapsed rather
than repeated (`C4_counterexample`).  In particular two distinct tied
plaintexts both appear. -/
theorem C4_amended_selection (m : Nat) (bank : List PyStr) (ct : PyStr) (hm : 2 ≤ m) :
    find_possible_plaintext m bank ct
      = some ((firstOccurrences (candidatePlaintexts m ct)).filter
          (fun p => calculate_score bank p
            == listMax ((candidatePlaintexts m ct).map (calculate_score bank)))) := by
  rw [find_possible_plaintext_eq, if_neg (candidatePlaintexts_ne_nil m ct hm)]

/-- C4 witness: alphabet size 2, empty bank, ciphertext "1". -/
theorem C4_amended_selection_witness :
    find_possible_plaintext 2 [] [49]
      = some ((firstOccurrences (candidatePlaintexts 2 [49])).filter
          (fun p => calculate_score [] p
            == listMax ((candidatePlaintexts 2 [49]).map (calculate_score [])))) :=
  C4_amended_selection 2 [] [49] (by decide)

/-- C4 counterexample: the ciphertext "1" has no alphabetic characters, so
both valid keys of the size-2 alphabet produce the plaintext "1"; without
deduplication the maximal-score candidate list would be ["1", "1"], but the
code returns ["1"]. -/
theorem C4_counterexample :
    find_possible_plaintext 2 [] [49] = some [[49]] ∧
      specResultNoDedup 2 [] [49] = [[49], [49]] ∧
      find_possible_plaintext 2 [] [49] ≠ some (specResultNoDedup 2 [] [49]) := by
  decide

/-- C7 (confirmed): `find_possible_plaintext` fails (Python: `ValueError`
from `max()` on the empty dict) exactly when the key enumeration yields zero
valid keys, and that happens exactly for the degenerate alphabet sizes
`m < 2` — for `m ≥ 2` the key (shift 0, multiplier 1) is always valid. -/
theorem C7_empty_keyspace (m : Nat) (bank : List PyStr) (ct : PyStr) :
    (find_possible_plaintext m bank ct = none ↔ validKeys m = []) ∧
      (validKeys m = [] ↔ m < 2) := by
  have hvk : validKeys m = [] ↔ m < 2 := by
    constructor
    · intro h
      by_contra hge
      push_neg at hge
      have hkey := mem_validKeys_zero_one m hge
      rw [h] at hkey
      cases hkey
    · intro h
      rcases m with _ | m2
      · rfl
      · rcases m2 with _ | m3
        · decide
        · exact absurd h (by omega)
  refine ⟨?_, hvk⟩
  rw [find_possible_plaintext_eq]
  by_cases hps : candidatePlaintexts m ct = []
  · rw [if_pos hps]
    exact ⟨fun _ => (candidatePlaintexts_nil_iff m ct).mp hps, fun _ => rfl⟩
  · rw [if_neg hps]
    constructor
    · intro h
      exact (Option.some_ne_none _ h).elim
    · intro h
      exact absurd ((candidatePlaintexts_nil_iff m ct).mpr h) hps

/-- C10 (confirmed): the recursive `extended_gcd` terminates on all
non-negative inputs — it satisfies exactly the source's recursion equations
as a total function — and returns `(g, x, y)` with `g = gcd(a, b)` and
`a*x + b*y = g`. -/
theorem C10_extended_gcd (a b : Nat) :
    (a = 0 → extended_gcd a b = (b, 0, 1)) ∧
      (a ≠ 0 → extended_gcd a b
        = ((extended_gcd (b % a) a).1,
           (extended_gcd (b % a) a).2.2
             - ((b / a : Nat) : Int) * (extended_gcd (b % a) a).2.1,
           (extended_gcd (b % a) a).2.1)) ∧
      (extended_gcd a b).1 = Nat.gcd a b ∧
      (a : Int) * (extended_gcd a b).2.1 + (b : Int) * (extended_gcd a b).2.2
        = ((extended_gcd a b).1 : Int) := by
  obtain ⟨h1, h2⟩ := extended_gcd_spec a b
  refine ⟨fun ha => by rw [ha]; rfl, fun ha => extended_gcd_rec_eq a b ha, h1, ?_⟩
  rw [h1]
  exact h2

/-- C10 witness: `extended_gcd 3 26` follows the recursion through
`extended_gcd 2 3`. -/
theorem C10_extended_gcd_witness :
    extended_gcd 3 26
      = ((extended_gcd (26 % 3) 3).1,
         (extended_gcd (26 % 3) 3).2.2
           - ((26 / 3 : Nat) : Int) * (extended_gcd (26 % 3) 3).2.1,
         (extended_gcd (26 % 3) 3).2.1) :=
  (C10_extended_gcd 3 26).2.1 (by decide)

end AffineCipher
